import Mathlib

/-!
Verification of the EDA-report generator (src/generate_eda_report.py).

The script is a linear batch job: load a CSV of police stops merged with a
neighborhood vulnerability index, derive columns, compute grouped summary
statistics, and render a multi-page report.  This file gives a shallow
embedding of the data model and of the computations the testable properties
speak about: the table is a list of rows, nullable columns are Option-valued
fields, pandas missing-value semantics (NaN comparisons yield False, groupby
drops missing keys, dropna filters rows) is made explicit, and all rates are
rational numbers.
-/

/-- Raw value of the search_conducted CSV column before normalization: a
literal boolean, a string, or a missing value (NaN). -/
inductive RawCell where
  | boolVal : Bool → RawCell
  | strVal : String → RawCell
  | na : RawCell
deriving DecidableEq

/-- Pandas elementwise comparison of a raw cell with a Python boolean
(series == True): a missing value or a string compares unequal, giving False. -/
def cellEqBool (c : RawCell) (b : Bool) : Bool :=
  match c with
  | RawCell.boolVal x => x == b
  | _ => false

/-- Pandas elementwise comparison of a raw cell with a string literal
(series == str): a missing value or a boolean compares unequal, giving False. -/
def cellEqStr (c : RawCell) (s : String) : Bool :=
  match c with
  | RawCell.strVal x => x == s
  | _ => false

/-- Line 15 of the script: the search_conducted column is normalized by
(df[search_conducted] == True) | (df[search_conducted] == (str) True).
The result has boolean dtype, hence is never missing. -/
def normalizeSearch (c : RawCell) : Bool :=
  cellEqBool c true || cellEqStr c "True"

/-- One row of the loaded table after the derived columns of lines 15-21:
search_conducted normalized to Bool (line 15); hour extracted from parsing the
time field with parse errors coerced to a missing value (line 20); the
vulnerability score svi_rpl_themes and the two categorical columns are
nullable. -/
structure Row where
  search_conducted : Bool
  hour : Option Nat
  svi_rpl_themes : Option ℚ
  subject_race : Option String
  reason_for_stop : Option String
deriving DecidableEq

/-- Pandas comparison (col >= c) on a nullable numeric column: a missing entry
(NaN) compares False. -/
def optGe (x : Option Nat) (c : Nat) : Bool :=
  match x with
  | some v => decide (c ≤ v)
  | none => false

/-- Pandas comparison (col < c) on a nullable numeric column: a missing entry
(NaN) compares False. -/
def optLt (x : Option Nat) (c : Nat) : Bool :=
  match x with
  | some v => decide (v < c)
  | none => false

/-- Line 21 of the script: df[is_night] = (df[hour] >= 18) | (df[hour] < 6).
Both comparisons yield False on a missing hour, so the column has boolean
dtype: a row with an unparseable time gets the value false, not a missing
value. -/
def is_night (r : Row) : Bool :=
  optGe r.hour 18 || optLt r.hour 6

/-- The is_night column viewed as a nullable column: boolean dtype has no
missing entries, so every entry is some value. -/
def is_night_col (r : Row) : Option Bool :=
  some (is_night r)

/-- Modelled from the spec words (sections 3 and 8): the night flag the
specification describes, equal to true iff hour >= 18 or hour < 6, and
undefined when the hour is undefined. -/
def is_night_spec (r : Row) : Option Bool :=
  r.hour.map (fun h => decide (18 ≤ h) || decide (h < 6))

/-- Line 23 of the script: n_searched as in line 48, the number of rows whose
normalized search flag is True. -/
def n_searched (df : List Row) : Nat :=
  df.countP (fun r => r.search_conducted)

/-- Line 47 of the script: n_total = len(df). -/
def n_total (df : List Row) : Nat :=
  df.length

/-- Line 23 of the script: overall_rate = df[search_conducted].mean(), the
mean of a boolean column, i.e. the number of True entries divided by the
number of rows. -/
def overall_rate (df : List Row) : ℚ :=
  (n_searched df : ℚ) / (n_total df : ℚ)

/-- Pandas isna on an entry of a boolean (non-nullable) column: always False. -/
def isnaBool (_ : Bool) : Bool :=
  false

/-- Line 24 of the script: tmp = df.dropna(subset=[svi_rpl_themes,
search_conducted]).  The svi column is nullable; the search column has boolean
dtype, so its isna test is isnaBool. -/
def tmpRows (df : List Row) : List Row :=
  df.filter (fun r => r.svi_rpl_themes.isSome && !(isnaBool r.search_conducted))

/-- The normalized search column viewed as a nullable column (boolean dtype:
every entry present). -/
def searchColOpt (raws : List RawCell) : List (Option Bool) :=
  raws.map (fun c => some (normalizeSearch c))

/-- Insertion of an element into a list according to a boolean relation le:
the element goes in front of the first entry it relates to. -/
def insertLe {α : Type} (le : α → α → Bool) (x : α) : List α → List α
  | [] => [x]
  | y :: ys => if le x y then x :: y :: ys else y :: insertLe le x ys

/-- Insertion sort by a boolean relation.  This models the sorts used by the
script (sort_values on line 40 and 180, value_counts on lines 42 and 175):
the output is a permutation of the input ordered by the relation. -/
def sortBy {α : Type} (le : α → α → Bool) : List α → List α
  | [] => []
  | x :: xs => insertLe le x (sortBy le xs)

theorem insertLe_perm {α : Type} (le : α → α → Bool) (x : α) (l : List α) :
    (insertLe le x l).Perm (x :: l) := by
  induction l with
  | nil => exact List.Perm.refl _
  | cons y ys ih =>
    rw [insertLe]
    by_cases h : le x y = true
    · simp [h]
    · simp only [h, Bool.false_eq_true, if_false]
      exact (ih.cons y).trans (List.Perm.swap x y ys)

theorem sortBy_perm {α : Type} (le : α → α → Bool) (l : List α) :
    (sortBy le l).Perm l := by
  induction l with
  | nil => exact List.Perm.refl _
  | cons x xs ih => exact (insertLe_perm le x (sortBy le xs)).trans (ih.cons x)

theorem mem_sortBy {α : Type} {le : α → α → Bool} {a : α} {l : List α} :
    a ∈ sortBy le l ↔ a ∈ l :=
  (sortBy_perm le l).mem_iff

theorem mem_insertLe {α : Type} {le : α → α → Bool} {a x : α} {l : List α} :
    a ∈ insertLe le x l ↔ a = x ∨ a ∈ l := by
  rw [(insertLe_perm le x l).mem_iff, List.mem_cons]

theorem pairwise_insertLe {α : Type} {le : α → α → Bool}
    (htot : ∀ a b, le a b = true ∨ le b a = true)
    (htrans : ∀ a b c, le a b = true → le b c = true → le a c = true)
    {x : α} {l : List α} (hl : l.Pairwise (fun a b => le a b = true)) :
    (insertLe le x l).Pairwise (fun a b => le a b = true) := by
  induction l with
  | nil => simp [insertLe]
  | cons y ys ih =>
    rw [insertLe]
    rcases List.pairwise_cons.mp hl with ⟨hy, hys⟩
    by_cases h : le x y = true
    · simp only [h, if_true]
      refine List.pairwise_cons.mpr ⟨?_, hl⟩
      intro z hz
      rcases List.mem_cons.mp hz with hz | hz
      · exact hz ▸ h
      · exact htrans x y z h (hy z hz)
    · simp only [h, Bool.false_eq_true, if_false]
      refine List.pairwise_cons.mpr ⟨?_, ih hys⟩
      intro z hz
      rcases mem_insertLe.mp hz with hz | hz
      · rcases htot x y with hxy | hyx
        · exact absurd hxy h
        · exact hz ▸ hyx
      · exact hy z hz

theorem pairwise_sortBy {α : Type} {le : α → α → Bool}
    (htot : ∀ a b, le a b = true ∨ le b a = true)
    (htrans : ∀ a b c, le a b = true → le b c = true → le a c = true)
    (l : List α) :
    (sortBy le l).Pairwise (fun a b => le a b = true) := by
  induction l with
  | nil => exact List.Pairwise.nil
  | cons x xs ih => exact pairwise_insertLe htot htrans ih

/-- The search rate of a group of rows: mean of the boolean search flag, as in
the aggregation lambdas x.eq(True).mean() of lines 37, 178, 195. -/
def rateOf (g : List Row) : ℚ :=
  ((g.countP (fun r => r.search_conducted)) : ℚ) / (g.length : ℚ)

/-- One output row of a grouped summary: group key, group size, search rate. -/
structure GroupStat (K : Type) where
  key : K
  n : Nat
  search_rate : ℚ
deriving DecidableEq

/-- The group of a given race key: groupby on line 35 collects the rows whose
subject_race equals the key; rows with a missing race belong to no group. -/
def raceGroup (df : List Row) (k : String) : List Row :=
  df.filter (fun r => decide (r.subject_race = some k))

/-- The distinct race keys present in the table (groupby drops missing keys). -/
def raceKeys (df : List Row) : List String :=
  (df.filterMap (fun r => r.subject_race)).dedup

/-- The summary row of one race group (lines 35-39): size and search rate. -/
def raceStat (df : List Row) (k : String) : GroupStat String :=
  { key := k, n := (raceGroup df k).length, search_rate := rateOf (raceGroup df k) }

/-- Lines 35-40: race_summary = df.groupby(subject_race).agg(n, search_rate)
sorted by search_rate descending. -/
def race_summary (df : List Row) : List (GroupStat String) :=
  sortBy (fun a b => decide (b.search_rate ≤ a.search_rate))
    ((raceKeys df).map (raceStat df))

/-- The search rate of the first row of the race summary (0 for an empty
summary). -/
def firstRate (df : List Row) : ℚ :=
  ((race_summary df).headD (GroupStat.mk "" 0 0)).search_rate

/-- Lines 194-196: the day-vs-night view groups the whole table by the boolean
is_night column; the group of a row is determined by its is_night value. -/
def daynightGroup (df : List Row) (b : Bool) : List Row :=
  df.filter (fun r => is_night r == b)

/-- C1 (counterexample): for the concrete row whose time field failed to
parse (hour missing), the derived night flag of the code is the defined value
false, whereas the claim says the night flag is undefined whenever the hour is
undefined (is_night_spec gives none there).  So the claim, read as
is_night_col = is_night_spec, fails at this row. -/
theorem night_flag_missing_counterexample :
    (Row.mk false none none none none).hour = none ∧
    is_night_col (Row.mk false none none none none) = some false ∧
    is_night_spec (Row.mk false none none none none) = none ∧
    is_night_col (Row.mk false none none none none) ≠
      is_night_spec (Row.mk false none none none none) := by
  refine ⟨rfl, ?_, rfl, ?_⟩
  · simp [is_night_col, is_night, optGe, optLt]
  · simp [is_night_col, is_night_spec, optGe, optLt]

/-- C1 (amended): the night flag is always defined; it equals the flag the
spec describes where the hour is defined and defaults to false (day) where the
hour is undefined; equivalently it is true iff the hour parsed and is >= 18 or
< 6. -/
theorem night_flag_amended (r : Row) :
    is_night r = (is_night_spec r).getD false ∧
    (is_night r = true ↔ ∃ h, r.hour = some h ∧ (18 ≤ h ∨ h < 6)) := by
  cases hr : r.hour with
  | none => simp [is_night, is_night_spec, optGe, optLt, hr]
  | some h =>
    constructor
    · simp [is_night, is_night_spec, optGe, optLt, hr]
    · simp only [is_night, optGe, optLt, hr, Bool.or_eq_true, decide_eq_true_eq]
      constructor
      · intro hcase
        exact ⟨h, rfl, hcase⟩
      · rintro ⟨h', hh', hcase⟩
        cases hh'
        exact hcase

/-- C2: for a non-empty table the overall search rate equals the number of
searched rows divided by the total number of rows, and lies in the closed
interval from 0 to 1. -/
theorem overall_rate_eq_and_bounds (df : List Row) (hne : df ≠ []) :
    overall_rate df = (n_searched df : ℚ) / (n_total df : ℚ) ∧
    0 ≤ overall_rate df ∧ overall_rate df ≤ 1 := by
  have hlen : 0 < df.length := List.length_pos.mpr hne
  refine ⟨rfl, ?_, ?_⟩
  · apply div_nonneg
    · exact Nat.cast_nonneg _
    · exact Nat.cast_nonneg _
  · rw [overall_rate, div_le_one]
    · exact_mod_cast List.countP_le_length _
    · rw [n_total]
      exact_mod_cast hlen

/-- C2 (witness): the bounds theorem applied to a concrete one-row table. -/
theorem overall_rate_eq_and_bounds_witness :
    overall_rate [Row.mk true none none none none] =
      (n_searched [Row.mk true none none none none] : ℚ) /
        (n_total [Row.mk true none none none none] : ℚ) ∧
    0 ≤ overall_rate [Row.mk true none none none none] ∧
    overall_rate [Row.mk true none none none none] ≤ 1 :=
  overall_rate_eq_and_bounds [Row.mk true none none none none] (by simp)

/-- C9: the normalized search column contains no missing entry (filtering the
nullable view by presence removes nothing); a raw cell normalizes to true
exactly when it is the boolean True or the exact string True (so missing
values and other spellings give false); and consequently the dropna of line 24
on the pair (svi, search) removes exactly the rows with a missing svi score:
the search part of the subset removes no row. -/
theorem search_normalization_total (raws : List RawCell) (df : List Row) :
    ((searchColOpt raws).filter (fun x => x.isSome)) = searchColOpt raws ∧
    (∀ c : RawCell, normalizeSearch c = true ↔
      (c = RawCell.boolVal true ∨ c = RawCell.strVal "True")) ∧
    tmpRows df = df.filter (fun r => r.svi_rpl_themes.isSome) := by
  refine ⟨?_, ?_, ?_⟩
  · simp only [searchColOpt, List.filter_map, Function.comp]
    congr 1
    apply List.filter_eq_self.mpr
    intro c _
    simp
  · intro c
    cases c with
    | boolVal x => cases x <;> simp [normalizeSearch, cellEqBool, cellEqStr]
    | strVal s => simp [normalizeSearch, cellEqBool, cellEqStr]
    | na => simp [normalizeSearch, cellEqBool, cellEqStr]
  · simp [tmpRows, isnaBool]

/-- C6: the race summary is sorted by descending search rate; every pair of
adjacent rows is nonincreasing, every summary row is bounded by the first
row's rate, and the first row attains the maximum rate among all race groups. -/
theorem race_summary_sorted_desc (df : List Row) :
    List.Chain' (fun a b => b.search_rate ≤ a.search_rate) (race_summary df) ∧
    (∀ s ∈ race_summary df, s.search_rate ≤ firstRate df) ∧
    (∀ k ∈ raceKeys df, (raceStat df k).search_rate ≤ firstRate df) := by
  have htot : ∀ a b : GroupStat String,
      decide (b.search_rate ≤ a.search_rate) = true ∨
      decide (a.search_rate ≤ b.search_rate) = true := by
    intro a b
    rcases le_total b.search_rate a.search_rate with h | h
    · exact Or.inl (decide_eq_true h)
    · exact Or.inr (decide_eq_true h)
  have htrans : ∀ a b c : GroupStat String,
      decide (b.search_rate ≤ a.search_rate) = true →
      decide (c.search_rate ≤ b.search_rate) = true →
      decide (c.search_rate ≤ a.search_rate) = true := by
    intro a b c hab hbc
    exact decide_eq_true (le_trans (of_decide_eq_true hbc) (of_decide_eq_true hab))
  have hpw : (race_summary df).Pairwise
      (fun a b => b.search_rate ≤ a.search_rate) := by
    have := pairwise_sortBy htot htrans ((raceKeys df).map (raceStat df))
    exact this.imp (fun h => of_decide_eq_true h)
  have hmax : ∀ s ∈ race_summary df, s.search_rate ≤ firstRate df := by
    intro s hs
    cases hsum : race_summary df with
    | nil => rw [hsum] at hs; simp at hs
    | cons hd tl =>
      have hfr : firstRate df = hd.search_rate := by simp [firstRate, hsum]
      rw [hsum] at hs hpw
      rcases List.mem_cons.mp hs with hs | hs
      · rw [hfr, hs]
      · rw [hfr]
        exact (List.pairwise_cons.mp hpw).1 s hs
  refine ⟨hpw.chain', hmax, ?_⟩
  intro k hk
  apply hmax
  rw [race_summary]
  exact mem_sortBy.mpr (List.mem_map_of_mem (raceStat df) hk)

/-- C6 (witness): the sortedness theorem applied to a concrete one-row table
with a single race group. -/
theorem race_summary_sorted_desc_witness :
    (raceStat [Row.mk true none none (some "white") none] "white").search_rate ≤
      firstRate [Row.mk true none none (some "white") none] :=
  (race_summary_sorted_desc [Row.mk true none none (some "white") none]).2.2
    "white" (by simp [raceKeys])

/-- C3 (counterexample): the day-vs-night view does not exclude the rows whose
night flag is undefined in the sense of the spec (unparseable time).  In the
concrete one-row table whose single row has a missing hour, that row is a
member of the day group of the view, so it participates in the view. -/
theorem daynight_missing_hour_counterexample :
    (Row.mk false none none none none).hour = none ∧
    is_night_spec (Row.mk false none none none none) = none ∧
    Row.mk false none none none none ∈
      daynightGroup [Row.mk false none none none none] false := by
  refine ⟨rfl, rfl, ?_⟩
  simp [daynightGroup, is_night, optGe, optLt]

/-- C3 (amended): exclusion of rows with a missing key is per view and local.
For every row of the table: the quartile view (tmp, line 24) contains it iff
its vulnerability score is present; it belongs to some race group iff its race
is present; it always belongs to its day-vs-night group (that view excludes no
row); and a row with an unparseable time is counted in the day group. -/
theorem local_exclusion_amended (df : List Row) (r : Row) (hr : r ∈ df) :
    (r ∈ tmpRows df ↔ r.svi_rpl_themes.isSome = true) ∧
    ((∃ k, r ∈ raceGroup df k) ↔ r.subject_race.isSome = true) ∧
    r ∈ daynightGroup df (is_night r) ∧
    (r.hour = none → r ∈ daynightGroup df false) := by
  refine ⟨?_, ?_, ?_, ?_⟩
  · simp [tmpRows, List.mem_filter, hr, isnaBool]
  · constructor
    · rintro ⟨k, hk⟩
      have hdec := (List.mem_filter.mp hk).2
      rw [decide_eq_true_eq] at hdec
      simp [hdec]
    · intro hsome
      cases hrace : r.subject_race with
      | none => rw [hrace] at hsome; simp at hsome
      | some k =>
        exact ⟨k, List.mem_filter.mpr ⟨hr, by simp [raceGroup, hrace]⟩⟩
  · exact List.mem_filter.mpr ⟨hr, by simp⟩
  · intro hh
    have hb : is_night r = false := by simp [is_night, optGe, optLt, hh]
    exact List.mem_filter.mpr ⟨hr, by simp [hb]⟩

/-- C3 (witness): the local-exclusion theorem applied to a concrete one-row
table whose row has a present score, a present race and a missing hour. -/
theorem local_exclusion_amended_witness :
    (Row.mk true none (some 0) (some "white") none ∈
        tmpRows [Row.mk true none (some 0) (some "white") none] ↔
      (Row.mk true none (some 0) (some "white") none).svi_rpl_themes.isSome = true) ∧
    ((∃ k, Row.mk true none (some 0) (some "white") none ∈
        raceGroup [Row.mk true none (some 0) (some "white") none] k) ↔
      (Row.mk true none (some 0) (some "white") none).subject_race.isSome = true) ∧
    Row.mk true none (some 0) (some "white") none ∈
      daynightGroup [Row.mk true none (some 0) (some "white") none]
        (is_night (Row.mk true none (some 0) (some "white") none)) ∧
    ((Row.mk true none (some 0) (some "white") none).hour = none →
      Row.mk true none (some 0) (some "white") none ∈
        daynightGroup [Row.mk true none (some 0) (some "white") none] false) :=
  local_exclusion_amended [Row.mk true none (some 0) (some "white") none]
    (Row.mk true none (some 0) (some "white") none) (by simp)

/-- Line 175: the count of one distinct reason value in the table
(value_counts counts occurrences of each non-missing value). -/
def reasonCount (df : List Row) (k : String) : Nat :=
  df.countP (fun r => decide (r.reason_for_stop = some k))

/-- The distinct reason values present in the table (value_counts and groupby
drop missing values). -/
def reasonKeys (df : List Row) : List String :=
  (df.filterMap (fun r => r.reason_for_stop)).dedup

/-- Line 175: top_reasons = value_counts(reason_for_stop).head(8).index, the
distinct reasons sorted by count descending, truncated to the first eight. -/
def top_reasons (df : List Row) : List String :=
  (sortBy (fun a b => decide (reasonCount df b ≤ reasonCount df a))
    (reasonKeys df)).take 8

/-- The isin test of line 176 on a nullable value: a missing reason is never
in the top list. -/
def inTop (df : List Row) (x : Option String) : Bool :=
  match x with
  | some k => decide (k ∈ top_reasons df)
  | none => false

/-- Line 176: reason_df = df[df[reason_for_stop].isin(top_reasons)]. -/
def reason_df (df : List Row) : List Row :=
  df.filter (fun r => inTop df r.reason_for_stop)

/-- The group of one reason value inside a base table (groupby of line 177). -/
def reasonGroup (base : List Row) (k : String) : List Row :=
  base.filter (fun r => decide (r.reason_for_stop = some k))

/-- The summary row of one reason group (lines 177-179). -/
def reasonStat (base : List Row) (k : String) : GroupStat String :=
  { key := k, n := (reasonGroup base k).length,
    search_rate := rateOf (reasonGroup base k) }

/-- Lines 177-180: reason_summary = reason_df.groupby(reason_for_stop)
aggregated to search rates and sorted by search_rate descending. -/
def reason_summary (df : List Row) : List (GroupStat String) :=
  sortBy (fun a b => decide (b.search_rate ≤ a.search_rate))
    ((reasonKeys (reason_df df)).map (reasonStat (reason_df df)))

/-- C7: every row of the reason summary is keyed by one of the top reasons;
there are at most eight top reasons; and the top reasons are most frequent:
any present reason outside the top list has a count less than or equal to the
count of every reason in the list.  Hence no category outside the top eight
ever appears in the summary. -/
theorem reason_summary_top8 (df : List Row) :
    (∀ s ∈ reason_summary df, s.key ∈ top_reasons df) ∧
    (top_reasons df).length ≤ 8 ∧
    (∀ k ∈ top_reasons df, ∀ kk ∈ reasonKeys df, kk ∉ top_reasons df →
      reasonCount df kk ≤ reasonCount df k) := by
  refine ⟨?_, ?_, ?_⟩
  · intro s hs
    rw [reason_summary] at hs
    rcases List.mem_map.mp (mem_sortBy.mp hs) with ⟨k, hk, hsk⟩
    have hkey : s.key = k := by rw [← hsk, reasonStat]
    rw [hkey]
    rw [reasonKeys] at hk
    rcases List.mem_filterMap.mp (List.mem_dedup.mp hk) with ⟨r, hr, hrk⟩
    have hp := (List.mem_filter.mp hr).2
    rw [hrk] at hp
    simpa [inTop] using hp
  · exact List.length_take_le 8 _
  · intro k hk kk hkk hnot
    have htot : ∀ a b : String,
        decide (reasonCount df b ≤ reasonCount df a) = true ∨
        decide (reasonCount df a ≤ reasonCount df b) = true := by
      intro a b
      rcases le_total (reasonCount df b) (reasonCount df a) with h | h
      · exact Or.inl (decide_eq_true h)
      · exact Or.inr (decide_eq_true h)
    have htrans : ∀ a b c : String,
        decide (reasonCount df b ≤ reasonCount df a) = true →
        decide (reasonCount df c ≤ reasonCount df b) = true →
        decide (reasonCount df c ≤ reasonCount df a) = true := by
      intro a b c hab hbc
      exact decide_eq_true (le_trans (of_decide_eq_true hbc) (of_decide_eq_true hab))
    have hpw := pairwise_sortBy htot htrans (reasonKeys df)
    set sorted := sortBy
      (fun a b => decide (reasonCount df b ≤ reasonCount df a))
      (reasonKeys df) with hsorted
    have hsplit : sorted.take 8 ++ sorted.drop 8 = sorted :=
      List.take_append_drop 8 sorted
    rw [← hsplit] at hpw
    rcases List.pairwise_append.mp hpw with ⟨_, _, hcross⟩
    have hkk2 : kk ∈ sorted := mem_sortBy.mpr hkk
    rw [← hsplit] at hkk2
    rcases List.mem_append.mp hkk2 with hkk2 | hkk2
    · exact absurd hkk2 (by rwa [top_reasons] at hnot)
    · have htake : k ∈ sorted.take 8 := by rwa [top_reasons] at hk
      exact of_decide_eq_true (hcross k htake kk hkk2)

/-- Row with only a reason value set, used by the witness tables below. -/
def reasonRow (s : String) : Row :=
  Row.mk false none none none (some s)

/-- Witness table with nine distinct reasons, so that one of them falls
outside the top eight. -/
def nineReasons : List Row :=
  [reasonRow "a", reasonRow "b", reasonRow "c", reasonRow "d", reasonRow "e",
   reasonRow "f", reasonRow "g", reasonRow "h", reasonRow "i"]

/-- C7 (witness): the theorem applied to a one-reason table (summary key lies
in the top list) and to the nine-reason table (the reason outside the top
eight has a count bounded by the count of one inside). -/
theorem reason_summary_top8_witness :
    ((reasonStat (reason_df [reasonRow "speeding"]) "speeding").key ∈
      top_reasons [reasonRow "speeding"]) ∧
    reasonCount nineReasons "i" ≤ reasonCount nineReasons "a" := by
  constructor
  · apply (reason_summary_top8 [reasonRow "speeding"]).1
    simp [reason_summary, reasonKeys, reason_df, inTop, top_reasons, sortBy,
      insertLe, reasonCount, reasonRow]
  · apply (reason_summary_top8 nineReasons).2.2 "a" ?_ "i" ?_ ?_
    · decide
    · decide
    · decide

/-- Line 25: tmp[search_01] = tmp[search_conducted].astype(int). -/
def search01 (r : Row) : Nat :=
  if r.search_conducted then 1 else 0

/-- Sorted copy of a value list; quantiles are computed on sorted values. -/
def sortedVals (vals : List ℚ) : List ℚ :=
  sortBy (fun a b => decide (a ≤ b)) vals

/-- Linear-interpolation quantile of a sorted list, the scheme pandas uses
inside qcut: position q*(n-1), value s[i] + (pos-i)*(s[i+1]-s[i]) with
i = floor(pos). -/
def quantileAt (s : List ℚ) (q : ℚ) : ℚ :=
  let pos : ℚ := q * ((s.length : ℚ) - 1)
  let i : Nat := Int.toNat ⌊pos⌋
  let lo := s.getD i 0
  let hi := s.getD (i + 1) lo
  lo + (pos - (i : ℚ)) * (hi - lo)

/-- Line 26: the five bin edges of pd.qcut(x, 4): the quantiles of the value
list at 0, 1/4, 1/2, 3/4 and 1. -/
def qcutEdges (vals : List ℚ) : List ℚ :=
  [quantileAt (sortedVals vals) 0, quantileAt (sortedVals vals) (1 / 4),
   quantileAt (sortedVals vals) (1 / 2), quantileAt (sortedVals vals) (3 / 4),
   quantileAt (sortedVals vals) 1]

/-- pd.qcut with the default duplicates behavior raises (bin edges must be
unique) exactly when the computed edges contain a duplicate. -/
def qcutFails (vals : List ℚ) : Bool :=
  !(decide (qcutEdges vals).Nodup)

/-- The svi column of tmp; after the dropna of line 24 every entry is
present. -/
def sviVals (df : List Row) : List ℚ :=
  (tmpRows df).filterMap (fun r => r.svi_rpl_themes)

/-- Bin assignment of pd.qcut for an in-range value: intervals (e0, e1],
(e1, e2], (e2, e3], (e3, e4], the first one extended on the left to include
the minimum; labels 0 to 3 stand for Q1 (low) to Q4 (high). -/
def quartileOf (edges : List ℚ) (x : ℚ) : Nat :=
  if x ≤ edges.getD 1 0 then 0
  else if x ≤ edges.getD 2 0 then 1
  else if x ≤ edges.getD 3 0 then 2
  else 3

/-- Line 26: tmp[svi_quartile], the quartile label of a row of tmp. -/
def sviQuartileOf (df : List Row) (r : Row) : Nat :=
  quartileOf (qcutEdges (sviVals df)) (r.svi_rpl_themes.getD 0)

/-- The quartile labels present in tmp, in ascending categorical order
(groupby with observed=True keeps exactly the non-empty bins). -/
def sviKeys (df : List Row) : List Nat :=
  sortBy (fun a b => decide (a ≤ b)) (((tmpRows df).map (sviQuartileOf df)).dedup)

/-- The rows of tmp falling in one quartile bin. -/
def sviGroup (df : List Row) (q : Nat) : List Row :=
  (tmpRows df).filter (fun r => decide (sviQuartileOf df r = q))

/-- Lines 28-31: one row of svi_summary: bin label, size, and mean of the 0/1
search column. -/
def sviStat (df : List Row) (q : Nat) : GroupStat Nat :=
  { key := q, n := (sviGroup df q).length,
    search_rate := (((sviGroup df q).map search01).sum : ℚ) /
      ((sviGroup df q).length : ℚ) }

/-- Lines 28-31: svi_summary = tmp.groupby(svi_quartile, observed=True)
aggregated to sizes and search rates, one row per non-empty bin. -/
def svi_summary (df : List Row) : List (GroupStat Nat) :=
  (sviKeys df).map (sviStat df)

/-- Line 26 with its failure mode: qcut raises on duplicate bin edges; the
exception is unhandled, so no summary (and no report) is produced. -/
def svi_summaryE (df : List Row) : Except String (List (GroupStat Nat)) :=
  if qcutFails (sviVals df) then Except.error "Bin edges must be unique"
  else Except.ok (svi_summary df)

theorem sum_map_search01 (l : List Row) :
    (l.map search01).sum = l.countP (fun r => r.search_conducted) := by
  induction l with
  | nil => rfl
  | cons r rs ih =>
    by_cases h : r.search_conducted <;>
      simp [search01, List.countP_cons, h, ih, Nat.add_comm]

theorem countP_filter_split {α : Type} (p q : α → Bool) (l : List α) :
    (l.filter q).countP p + (l.filter (fun r => !(q r))).countP p
      = l.countP p := by
  induction l with
  | nil => rfl
  | cons r rs ih =>
    by_cases hq : q r = true <;>
      by_cases hp : p r = true <;>
        simp [List.filter_cons, List.countP_cons, hq, hp] <;> omega

theorem countP_partition {α K : Type} [DecidableEq K] (f : α → K) (p : α → Bool) :
    ∀ ks : List K, ks.Nodup → ∀ l : List α, (∀ r ∈ l, f r ∈ ks) →
      (ks.map (fun k => (l.filter (fun r => decide (f r = k))).countP p)).sum
        = l.countP p := by
  intro ks
  induction ks with
  | nil =>
    intro _ l hcov
    have hl : l = [] := by
      cases l with
      | nil => rfl
      | cons r rs => exact absurd (hcov r (List.mem_cons_self r rs)) (List.not_mem_nil _)
    simp [hl]
  | cons k ks ih =>
    intro hnd l hcov
    rcases List.nodup_cons.mp hnd with ⟨hknotin, hnd'⟩
    rw [List.map_cons, List.sum_cons]
    have hrest : (ks.map (fun kk =>
        (l.filter (fun r => decide (f r = kk))).countP p)).sum
        = ((l.filter (fun r => !(decide (f r = k)))).countP p) := by
      have hmaps : ks.map (fun kk =>
          (l.filter (fun r => decide (f r = kk))).countP p)
          = ks.map (fun kk =>
          ((l.filter (fun r => !(decide (f r = k)))).filter
            (fun r => decide (f r = kk))).countP p) := by
        apply List.map_congr_left
        intro kk hkk
        rw [List.filter_filter]
        congr 1
        apply List.filter_congr
        intro r _
        by_cases hf : f r = kk
        · have hkkne : ¬kk = k := fun hEq => hknotin (hEq ▸ hkk)
          simp [hf, hkkne]
        · simp [hf]
      rw [hmaps]
      apply ih hnd'
      intro r hr
      rcases List.mem_filter.mp hr with ⟨hrl, hrk⟩
      rcases List.mem_cons.mp (hcov r hrl) with hfk | hfk
      · rw [hfk] at hrk
        simp at hrk
      · exact hfk
    rw [hrest]
    exact countP_filter_split p (fun r => decide (f r = k)) l

theorem sum_map_natCast {K : Type} (g : K → Nat) (ks : List K) :
    (ks.map (fun k => ((g k : Nat) : ℚ))).sum = (((ks.map g).sum : Nat) : ℚ) := by
  induction ks with
  | nil => simp
  | cons k ks ih => simp [ih]

/-- C4: over the rows of tmp (present vulnerability score), the count-weighted
average of the unrounded per-quartile search rates equals the overall search
rate of tmp. -/
theorem svi_weighted_avg (df : List Row) (_hne : tmpRows df ≠ []) :
    ((svi_summary df).map (fun s => (s.n : ℚ) * s.search_rate)).sum /
      ((svi_summary df).map (fun s => (s.n : ℚ))).sum
      = overall_rate (tmpRows df) := by
  have hnodup : (sviKeys df).Nodup :=
    (sortBy_perm _ _).nodup_iff.mpr (List.nodup_dedup _)
  have hcov : ∀ r ∈ tmpRows df, sviQuartileOf df r ∈ sviKeys df := by
    intro r hr
    exact mem_sortBy.mpr (List.mem_dedup.mpr (List.mem_map_of_mem _ hr))
  have hgrp_ne : ∀ q ∈ sviKeys df, (sviGroup df q).length ≠ 0 := by
    intro q hq
    rcases List.mem_map.mp (List.mem_dedup.mp (mem_sortBy.mp hq)) with ⟨r, hr, hrq⟩
    have : r ∈ sviGroup df q :=
      List.mem_filter.mpr ⟨hr, by simp [hrq]⟩
    intro hlen
    rw [List.length_eq_zero] at hlen
    rw [hlen] at this
    exact List.not_mem_nil r this
  have hnum : ((svi_summary df).map (fun s => (s.n : ℚ) * s.search_rate)).sum
      = ((tmpRows df).countP (fun r => r.search_conducted) : ℚ) := by
    rw [svi_summary, List.map_map]
    have hcongr : ((sviKeys df).map ((fun s => (s.n : ℚ) * s.search_rate) ∘ sviStat df))
        = (sviKeys df).map (fun q => ((sviGroup df q).countP (fun r => r.search_conducted) : ℚ)) := by
      apply List.map_congr_left
      intro q hq
      have hn : ((sviGroup df q).length : ℚ) ≠ 0 := by
        exact_mod_cast hgrp_ne q hq
      simp only [Function.comp, sviStat, sum_map_search01]
      field_simp
    rw [hcongr, sum_map_natCast (fun q => (sviGroup df q).countP (fun r => r.search_conducted))]
    congr 1
    exact countP_partition (sviQuartileOf df) (fun r => r.search_conducted)
      (sviKeys df) hnodup (tmpRows df) hcov
  have hden : ((svi_summary df).map (fun s => (s.n : ℚ))).sum
      = ((tmpRows df).length : ℚ) := by
    rw [svi_summary, List.map_map]
    have hmapeq : ((sviKeys df).map ((fun s => (s.n : ℚ)) ∘ sviStat df))
        = (sviKeys df).map (fun q => (((sviGroup df q).length : Nat) : ℚ)) := by
      apply List.map_congr_left
      intro q _
      simp [Function.comp, sviStat]
    rw [hmapeq, sum_map_natCast (fun q => (sviGroup df q).length)]
    have hlen : ((sviKeys df).map (fun q => (sviGroup df q).length)).sum
        = (tmpRows df).length := by
      have hpart := countP_partition (sviQuartileOf df) (fun _ : Row => true)
        (sviKeys df) hnodup (tmpRows df) hcov
      simpa [List.countP_true] using hpart
    rw [hlen]
  rw [hnum, hden, overall_rate, n_searched, n_total]

/-- C4 (witness): the weighted-average identity applied to a concrete one-row
table with a present vulnerability score. -/
theorem svi_weighted_avg_witness :
    ((svi_summary [Row.mk true none (some 0) none none]).map
        (fun s => (s.n : ℚ) * s.search_rate)).sum /
      ((svi_summary [Row.mk true none (some 0) none none]).map
        (fun s => (s.n : ℚ))).sum
      = overall_rate (tmpRows [Row.mk true none (some 0) none none]) :=
  svi_weighted_avg [Row.mk true none (some 0) none none]
    (by simp [tmpRows, isnaBool])

/-- Two-row table whose vulnerability scores are 0 and 1: only two distinct
non-missing values. -/
def twoScoreRows : List Row :=
  [Row.mk false none (some 0) none none, Row.mk false none (some 1) none none]

theorem quantileAt_const (s : List ℚ) (c : ℚ) (hne : s ≠ [])
    (hall : ∀ x ∈ s, x = c) (q : ℚ) (hq0 : 0 ≤ q) (hq1 : q ≤ 1) :
    quantileAt s q = c := by
  have hn : 1 ≤ s.length := List.length_pos.mpr hne
  have hn1 : (1 : ℚ) ≤ (s.length : ℚ) := by exact_mod_cast hn
  simp only [quantileAt]
  set pos : ℚ := q * ((s.length : ℚ) - 1) with hpos
  have hpos0 : 0 ≤ pos := mul_nonneg hq0 (by linarith)
  have hposle : pos ≤ (s.length : ℚ) - 1 := by
    calc pos = q * ((s.length : ℚ) - 1) := rfl
      _ ≤ 1 * ((s.length : ℚ) - 1) :=
          mul_le_mul_of_nonneg_right hq1 (by linarith)
      _ = (s.length : ℚ) - 1 := one_mul _
  have hfl0 : 0 ≤ ⌊pos⌋ := Int.floor_nonneg.mpr hpos0
  have hfl1 : ⌊pos⌋ ≤ (s.length : ℤ) - 1 := by
    have h1 : ((s.length : ℚ) - 1) = (((s.length : ℤ) - 1 : ℤ) : ℚ) := by push_cast; ring
    have h2 := Int.floor_le_floor (α := ℚ) hposle
    rwa [h1, Int.floor_intCast] at h2
  have hi : Int.toNat ⌊pos⌋ < s.length := by omega
  have hlo : s.getD (Int.toNat ⌊pos⌋) 0 = c := by
    rw [List.getD_eq_getElem s 0 hi]
    exact hall _ (List.getElem_mem hi)
  rw [hlo]
  have hhi : s.getD (Int.toNat ⌊pos⌋ + 1) c = c := by
    by_cases hlt : Int.toNat ⌊pos⌋ + 1 < s.length
    · rw [List.getD_eq_getElem s c hlt]
      exact hall _ (List.getElem_mem hlt)
    · exact List.getD_eq_default s c (by omega)
  rw [hhi]
  ring

/-- C5 (amended): when the vulnerability column of tmp is non-empty and has a
single distinct value, all five quantile edges coincide, qcut raises, and the
run aborts with the duplicate-bin-edges error before producing any summary. -/
theorem qcut_constant_fails (df : List Row) (c : ℚ) (hne : sviVals df ≠ [])
    (hall : ∀ x ∈ sviVals df, x = c) :
    qcutFails (sviVals df) = true ∧
    svi_summaryE df = Except.error "Bin edges must be unique" := by
  have hperm := sortBy_perm (fun a b : ℚ => decide (a ≤ b)) (sviVals df)
  have hne' : sortedVals (sviVals df) ≠ [] := by
    intro hscontra
    apply hne
    have hlen := hperm.length_eq
    rw [sortedVals] at hscontra
    rw [hscontra] at hlen
    have h0 : (sviVals df).length = 0 := by simpa using hlen.symm
    exact List.length_eq_zero.mp h0
  have hall' : ∀ x ∈ sortedVals (sviVals df), x = c := by
    intro x hx
    exact hall x (hperm.mem_iff.mp hx)
  have h0 := quantileAt_const _ c hne' hall' 0 (by norm_num) (by norm_num)
  have h14 := quantileAt_const _ c hne' hall' (1 / 4) (by norm_num) (by norm_num)
  have h12 := quantileAt_const _ c hne' hall' (1 / 2) (by norm_num) (by norm_num)
  have h34 := quantileAt_const _ c hne' hall' (3 / 4) (by norm_num) (by norm_num)
  have h1 := quantileAt_const _ c hne' hall' 1 (by norm_num) (by norm_num)
  have hedges : qcutEdges (sviVals df) = [c, c, c, c, c] := by
    rw [qcutEdges, h0, h14, h12, h34, h1]
  have hfails : qcutFails (sviVals df) = true := by
    rw [qcutFails, hedges]
    simp
  refine ⟨hfails, ?_⟩
  rw [svi_summaryE, hfails]
  rfl

/-- C5 (witness): the constant-column failure theorem applied to a concrete
one-row table whose only score is 5. -/
theorem qcut_constant_fails_witness :
    qcutFails (sviVals [Row.mk false none (some 5) none none]) = true ∧
    svi_summaryE [Row.mk false none (some 5) none none] =
      Except.error "Bin edges must be unique" :=
  qcut_constant_fails [Row.mk false none (some 5) none none] 5
    (by simp [sviVals, tmpRows, isnaBool])
    (by simp [sviVals, tmpRows, isnaBool])

/-- C5 (counterexample): a vulnerability column with only two distinct
non-missing values (0 and 1) does not make quartile binning fail: the
interpolated edges 0, 1/4, 1/2, 3/4, 1 are pairwise distinct, qcut succeeds,
and the summary is produced.  So fewer than 4 distinct values do not imply a
failing run. -/
theorem qcut_few_distinct_counterexample :
    (sviVals twoScoreRows).dedup.length < 4 ∧
    qcutFails (sviVals twoScoreRows) = false ∧
    svi_summaryE twoScoreRows = Except.ok (svi_summary twoScoreRows) := by
  have hvals : sviVals twoScoreRows = [0, 1] := by
    simp [sviVals, tmpRows, isnaBool, twoScoreRows]
  have hsorted : sortedVals [(0 : ℚ), 1] = [0, 1] := by
    rw [sortedVals, sortBy, sortBy, sortBy, insertLe, insertLe]
    norm_num
  have hq0 : quantileAt [(0 : ℚ), 1] 0 = 0 := by
    simp [quantileAt]
  have hq14 : quantileAt [(0 : ℚ), 1] (1 / 4) = 1 / 4 := by
    rw [quantileAt]
    norm_num [List.getD]
  have hq12 : quantileAt [(0 : ℚ), 1] (1 / 2) = 1 / 2 := by
    rw [quantileAt]
    norm_num [List.getD]
  have hq34 : quantileAt [(0 : ℚ), 1] (3 / 4) = 3 / 4 := by
    rw [quantileAt]
    norm_num [List.getD]
  have hq1 : quantileAt [(0 : ℚ), 1] 1 = 1 := by
    rw [quantileAt]
    norm_num [List.getD]
  have hedges : qcutEdges [(0 : ℚ), 1] = [0, 1 / 4, 1 / 2, 3 / 4, 1] := by
    rw [qcutEdges, hsorted, hq0, hq14, hq12, hq34, hq1]
  have hfails : qcutFails (sviVals twoScoreRows) = false := by
    rw [hvals, qcutFails, hedges]
    norm_num
  refine ⟨?_, hfails, ?_⟩
  · rw [hvals]
    norm_num [List.dedup_cons_of_not_mem]
  · rw [svi_summaryE, hfails]
    rfl

/-- Python whitespace test used by str.split() with no argument: space, tab,
newline, carriage return, vertical tab, form feed. -/
def isSpc (ch : Char) : Bool :=
  ch == ' ' || ch == Char.ofNat 9 || ch == Char.ofNat 10 ||
  ch == Char.ofNat 13 || ch == Char.ofNat 11 || ch == Char.ofNat 12

theorem length_dropWhile_le {α : Type} (p : α → Bool) (l : List α) :
    (l.dropWhile p).length ≤ l.length := by
  induction l with
  | nil => simp
  | cons c cs ih =>
    rw [List.dropWhile_cons]
    split
    · exact Nat.le_succ_of_le ih
    · simp

/-- Line 54 of the script: text.split() with no separator splits on runs of
whitespace and discards empty pieces; the result is the list of words. -/
def pySplit (s : List Char) : List (List Char) :=
  match s with
  | [] => []
  | c :: cs =>
    if isSpc c then pySplit cs
    else (c :: cs.takeWhile (fun d => !isSpc d)) ::
      pySplit (cs.dropWhile (fun d => !isSpc d))
termination_by s.length
decreasing_by
  · simp only [List.length_cons]
    omega
  · simp only [List.length_cons]
    exact Nat.lt_succ_of_le (length_dropWhile_le _ _)

theorem pySplit_nil : pySplit [] = [] := by
  rw [pySplit]

theorem pySplit_space (c : Char) (cs : List Char) (h : isSpc c = true) :
    pySplit (c :: cs) = pySplit cs := by
  rw [pySplit]
  simp [h]

theorem pySplit_word_cons (c : Char) (cs : List Char) (h : isSpc c = false) :
    pySplit (c :: cs) = (c :: cs.takeWhile (fun d => !isSpc d)) ::
      pySplit (cs.dropWhile (fun d => !isSpc d)) := by
  rw [pySplit]
  simp [h]

/-- Python single-space join (lines 58, 62, 65): words joined by one space. -/
def joinSp : List (List Char) → List Char
  | [] => []
  | w :: ws =>
    match ws with
    | [] => w
    | _ :: _ => w ++ ' ' :: joinSp ws

theorem joinSp_nil : joinSp [] = [] := rfl

theorem joinSp_singleton (w : List Char) : joinSp [w] = w := rfl

theorem joinSp_cons_cons (w v : List Char) (vs : List (List Char)) :
    joinSp (w :: v :: vs) = w ++ ' ' :: joinSp (v :: vs) := rfl

theorem takeWhile_append_all {α : Type} (p : α → Bool) (l1 l2 : List α)
    (h : ∀ x ∈ l1, p x = true) :
    (l1 ++ l2).takeWhile p = l1 ++ l2.takeWhile p := by
  induction l1 with
  | nil => simp
  | cons x xs ih =>
    have hx := h x (List.mem_cons_self x xs)
    simp [List.takeWhile_cons, hx,
      ih (fun y hy => h y (List.mem_cons_of_mem x hy))]

theorem dropWhile_append_all {α : Type} (p : α → Bool) (l1 l2 : List α)
    (h : ∀ x ∈ l1, p x = true) :
    (l1 ++ l2).dropWhile p = l2.dropWhile p := by
  induction l1 with
  | nil => simp
  | cons x xs ih =>
    have hx := h x (List.mem_cons_self x xs)
    simp [List.dropWhile_cons, hx,
      ih (fun y hy => h y (List.mem_cons_of_mem x hy))]

theorem joinSp_cons_append (x : List Char) (a b : List (List Char))
    (hb : b ≠ []) :
    joinSp ((x :: a) ++ b) = joinSp (x :: a) ++ ' ' :: joinSp b := by
  induction a generalizing x with
  | nil =>
    cases b with
    | nil => exact absurd rfl hb
    | cons y bs =>
      rw [show (x :: ([] : List (List Char))) ++ (y :: bs) = x :: y :: bs from rfl]
      rw [joinSp_cons_cons]
      rfl
  | cons x2 a2 ih =>
    calc joinSp ((x :: x2 :: a2) ++ b)
        = x ++ ' ' :: joinSp (x2 :: (a2 ++ b)) := joinSp_cons_cons x x2 (a2 ++ b)
      _ = x ++ ' ' :: (joinSp (x2 :: a2) ++ ' ' :: joinSp b) := by
          rw [show x2 :: (a2 ++ b) = (x2 :: a2) ++ b from rfl, ih x2]
      _ = (x ++ ' ' :: joinSp (x2 :: a2)) ++ ' ' :: joinSp b := by
          simp [List.append_assoc]
      _ = joinSp (x :: x2 :: a2) ++ ' ' :: joinSp b := by
          rw [joinSp_cons_cons]

theorem flatten_cons_ne_nil {α : Type} (c : List α) (cs : List (List α))
    (hc : c ≠ []) :
    (c :: cs).flatten ≠ [] := by
  cases c with
  | nil => exact absurd rfl hc
  | cons ch ct => simp

theorem joinSp_map_flatten (chunks : List (List (List Char)))
    (hne : ∀ c ∈ chunks, c ≠ []) :
    joinSp (chunks.map joinSp) = joinSp chunks.flatten := by
  induction chunks with
  | nil => rfl
  | cons c cs ih =>
    cases cs with
    | nil =>
      rw [show ([c] : List (List (List Char))).flatten = c ++ [] from rfl,
        List.append_nil]
      rfl
    | cons c2 cs2 =>
      have hc : c ≠ [] := hne c (List.mem_cons_self _ _)
      have hrest : ∀ x ∈ c2 :: cs2, x ≠ [] :=
        fun x hx => hne x (List.mem_cons_of_mem _ hx)
      have hjoinne : (c2 :: cs2).flatten ≠ [] :=
        flatten_cons_ne_nil c2 cs2 (hrest c2 (List.mem_cons_self _ _))
      obtain ⟨w, c', rfl⟩ := List.exists_cons_of_ne_nil hc
      calc joinSp (((w :: c') :: c2 :: cs2).map joinSp)
          = joinSp (joinSp (w :: c') :: ((c2 :: cs2).map joinSp)) := rfl
        _ = joinSp (w :: c') ++ ' ' :: joinSp ((c2 :: cs2).map joinSp) := by
            rw [List.map_cons, joinSp_cons_cons]
        _ = joinSp (w :: c') ++ ' ' :: joinSp ((c2 :: cs2).flatten) := by
            rw [ih hrest]
        _ = joinSp ((w :: c') ++ (c2 :: cs2).flatten) := by
            rw [joinSp_cons_append w c' _ hjoinne]
        _ = joinSp (((w :: c') :: c2 :: cs2).flatten) := by
            rw [show ((w :: c') :: c2 :: cs2).flatten
              = (w :: c') ++ (c2 :: cs2).flatten from rfl]

theorem pySplit_joinSp : ∀ ws : List (List Char),
    (∀ w ∈ ws, w ≠ [] ∧ ∀ ch ∈ w, isSpc ch = false) →
    pySplit (joinSp ws) = ws := by
  intro ws
  induction ws with
  | nil =>
    intro _
    exact pySplit_nil
  | cons w ws ih =>
    intro hws
    obtain ⟨hwne, hwclean⟩ := hws w (List.mem_cons_self w ws)
    obtain ⟨c, w', rfl⟩ := List.exists_cons_of_ne_nil hwne
    have hc : isSpc c = false := hwclean c (List.mem_cons_self _ _)
    have hw' : ∀ ch ∈ w', isSpc ch = false :=
      fun ch hch => hwclean ch (List.mem_cons_of_mem _ hch)
    cases ws with
    | nil =>
      rw [joinSp_singleton, pySplit_word_cons c w' hc]
      rw [List.takeWhile_eq_self_iff.mpr (by intro x hx; simp [hw' x hx])]
      rw [List.dropWhile_eq_nil_iff.mpr (by intro x hx; simp [hw' x hx])]
      rw [pySplit_nil]
    | cons w2 ws2 =>
      have hrest : ∀ u ∈ w2 :: ws2, u ≠ [] ∧ ∀ ch ∈ u, isSpc ch = false :=
        fun u hu => hws u (List.mem_cons_of_mem _ hu)
      rw [joinSp_cons_cons]
      rw [show (c :: w') ++ ' ' :: joinSp (w2 :: ws2)
        = c :: (w' ++ ' ' :: joinSp (w2 :: ws2)) from rfl]
      rw [pySplit_word_cons c _ hc]
      rw [takeWhile_append_all _ w' _ (by intro x hx; simp [hw' x hx])]
      rw [dropWhile_append_all _ w' _ (by intro x hx; simp [hw' x hx])]
      rw [show (' ' :: joinSp (w2 :: ws2)).takeWhile (fun d => !isSpc d) = [] from rfl]
      rw [show (' ' :: joinSp (w2 :: ws2)).dropWhile (fun d => !isSpc d)
        = ' ' :: joinSp (w2 :: ws2) from rfl]
      rw [pySplit_space _ _ (by rfl), ih hrest, List.append_nil]

theorem pySplit_clean (s : List Char) :
    ∀ w ∈ pySplit s, w ≠ [] ∧ ∀ ch ∈ w, isSpc ch = false := by
  induction s using pySplit.induct with
  | case1 => simp [pySplit_nil]
  | case2 c cs hc ih =>
    rw [pySplit_space c cs hc]
    exact ih
  | case3 c cs hc ih =>
    have hcf : isSpc c = false := by
      revert hc
      cases isSpc c <;> simp
    intro w hw
    rw [pySplit_word_cons c cs hcf] at hw
    rcases List.mem_cons.mp hw with rfl | hmem
    · refine ⟨List.cons_ne_nil _ _, ?_⟩
      intro ch hch
      rcases List.mem_cons.mp hch with rfl | hch
      · exact hcf
      · have := List.mem_takeWhile_imp hch
        revert this
        cases isSpc ch <;> simp
    · exact ih w hmem

theorem pySplit_all_clean (s : List Char) (hne : s ≠ [])
    (hclean : ∀ ch ∈ s, isSpc ch = false) :
    pySplit s = [s] := by
  obtain ⟨c, cs, rfl⟩ := List.exists_cons_of_ne_nil hne
  rw [pySplit_word_cons c cs (hclean c (List.mem_cons_self _ _))]
  rw [List.takeWhile_eq_self_iff.mpr
    (by intro x hx; simp [hclean x (List.mem_cons_of_mem _ hx)])]
  rw [List.dropWhile_eq_nil_iff.mpr
    (by intro x hx; simp [hclean x (List.mem_cons_of_mem _ hx)])]
  rw [pySplit_nil]

/-- Lines 55-64 of the script: the greedy loop of wrap_text, expressed on
word chunks.  The first argument list holds the words still to consume, the
second the accumulating current chunk; a word that fits the width (joined
length at most width) is appended to the current chunk, otherwise the current
chunk (if non-empty) is flushed as a finished line and the word starts a new
chunk.  After the loop a non-empty current chunk is flushed. -/
def wrapChunks (width : Nat) : List (List Char) → List (List Char) → List (List (List Char))
  | [], cur => if cur = [] then [] else [cur]
  | w :: ws, cur =>
    if (joinSp (cur ++ [w])).length ≤ width then wrapChunks width ws (cur ++ [w])
    else if cur = [] then wrapChunks width ws [w]
    else cur :: wrapChunks width ws [w]

/-- Lines 52-66 of the script: wrap_text(text, width) returns the list of
lines, each line the single-space join of one chunk of words; the default
width at every call site is 90. -/
def wrap_text (text : List Char) (width : Nat) : List (List Char) :=
  (wrapChunks width (pySplit text) []).map joinSp

theorem wrapChunks_flatten (width : Nat) :
    ∀ ws cur : List (List Char), (wrapChunks width ws cur).flatten = cur ++ ws := by
  intro ws
  induction ws with
  | nil =>
    intro cur
    by_cases h : cur = []
    · simp [wrapChunks, h]
    · simp [wrapChunks, h]
  | cons w ws ih =>
    intro cur
    rw [wrapChunks]
    by_cases h1 : (joinSp (cur ++ [w])).length ≤ width
    · rw [if_pos h1, ih (cur ++ [w])]
      simp
    · rw [if_neg h1]
      by_cases h2 : cur = []
      · rw [if_pos h2, ih [w], h2]
        rfl
      · rw [if_neg h2, List.flatten_cons, ih [w]]
        rfl

theorem wrapChunks_ne_nil (width : Nat) :
    ∀ ws cur : List (List Char), ∀ chunk ∈ wrapChunks width ws cur, chunk ≠ [] := by
  intro ws
  induction ws with
  | nil =>
    intro cur chunk hchunk
    rw [wrapChunks] at hchunk
    by_cases h : cur = []
    · rw [if_pos h] at hchunk
      exact absurd hchunk (List.not_mem_nil _)
    · rw [if_neg h] at hchunk
      rw [List.mem_singleton.mp hchunk]
      exact h
  | cons w ws ih =>
    intro cur chunk hchunk
    rw [wrapChunks] at hchunk
    by_cases h1 : (joinSp (cur ++ [w])).length ≤ width
    · rw [if_pos h1] at hchunk
      exact ih (cur ++ [w]) chunk hchunk
    · rw [if_neg h1] at hchunk
      by_cases h2 : cur = []
      · rw [if_pos h2] at hchunk
        exact ih [w] chunk hchunk
      · rw [if_neg h2] at hchunk
        rcases List.mem_cons.mp hchunk with rfl | hmem
        · exact h2
        · exact ih [w] chunk hmem

theorem wrapChunks_lines_ok (width : Nat) :
    ∀ ws cur : List (List Char),
      (cur = [] ∨ (joinSp cur).length ≤ width ∨ ∃ w, cur = [w]) →
      ∀ chunk ∈ wrapChunks width ws cur,
        (joinSp chunk).length ≤ width ∨ ∃ w, chunk = [w] := by
  intro ws
  induction ws with
  | nil =>
    intro cur hcur chunk hchunk
    rw [wrapChunks] at hchunk
    by_cases h : cur = []
    · rw [if_pos h] at hchunk
      exact absurd hchunk (List.not_mem_nil _)
    · rw [if_neg h] at hchunk
      rw [List.mem_singleton.mp hchunk]
      rcases hcur with h' | h' | h'
      · exact absurd h' h
      · exact Or.inl h'
      · exact Or.inr h'
  | cons w ws ih =>
    intro cur hcur chunk hchunk
    rw [wrapChunks] at hchunk
    by_cases h1 : (joinSp (cur ++ [w])).length ≤ width
    · rw [if_pos h1] at hchunk
      exact ih (cur ++ [w]) (Or.inr (Or.inl h1)) chunk hchunk
    · rw [if_neg h1] at hchunk
      by_cases h2 : cur = []
      · rw [if_pos h2] at hchunk
        exact ih [w] (Or.inr (Or.inr ⟨w, rfl⟩)) chunk hchunk
      · rw [if_neg h2] at hchunk
        rcases List.mem_cons.mp hchunk with rfl | hmem
        · rcases hcur with h' | h' | h'
          · exact absurd h' h2
          · exact Or.inl h'
          · exact Or.inr h'
        · exact ih [w] (Or.inr (Or.inr ⟨w, rfl⟩)) chunk hmem

/-- C10: joining the wrapped lines with single spaces and splitting on
whitespace recovers exactly the whitespace-split words of the input, in order:
the wrap drops, duplicates and reorders nothing, for every text and width. -/
theorem wrap_preserves_words (text : List Char) (width : Nat) :
    pySplit (joinSp (wrap_text text width)) = pySplit text := by
  rw [wrap_text]
  rw [joinSp_map_flatten _ (wrapChunks_ne_nil width (pySplit text) [])]
  rw [wrapChunks_flatten width (pySplit text) []]
  rw [List.nil_append]
  exact pySplit_joinSp (pySplit text) (pySplit_clean text)

/-- C8 (counterexample): at the default width 90, a text that is one word of
91 characters is returned as a single line of length 91, exceeding the
width.  So not every produced line has length at most the width. -/
theorem wrap_width_counterexample :
    List.replicate 91 'a' ∈ wrap_text (List.replicate 91 'a') 90 ∧
    90 < (List.replicate 91 'a').length := by
  have hclean : ∀ ch ∈ List.replicate 91 'a', isSpc ch = false := by
    intro ch hch
    rw [List.eq_of_mem_replicate hch]
    rfl
  have hne : (List.replicate 91 'a') ≠ [] := by
    intro h
    have := congrArg List.length h
    simp at this
  have hsplit : pySplit (List.replicate 91 'a') = [List.replicate 91 'a'] :=
    pySplit_all_clean _ hne hclean
  have hlen : (joinSp ([] ++ [List.replicate 91 'a'])).length = 91 := by
    rw [List.nil_append, joinSp_singleton, List.length_replicate]
  constructor
  · rw [wrap_text, hsplit, wrapChunks]
    rw [if_neg (by rw [hlen]; omega)]
    rw [if_pos rfl, wrapChunks]
    rw [if_neg (List.cons_ne_nil _ _)]
    rw [List.map_singleton, joinSp_singleton]
    exact List.mem_singleton.mpr rfl
  · rw [List.length_replicate]
    omega

/-- C8 (amended): every line produced by wrap_text either has length at most
the width or is a single word of the input text (an over-long word is put on
a line of its own and only then may the line exceed the width). -/
theorem wrap_width_amended (text : List Char) (width : Nat) :
    ∀ line ∈ wrap_text text width,
      line.length ≤ width ∨ line ∈ pySplit text := by
  intro line hline
  rw [wrap_text] at hline
  rcases List.mem_map.mp hline with ⟨chunk, hchunk, rfl⟩
  rcases wrapChunks_lines_ok width (pySplit text) [] (Or.inl rfl) chunk hchunk
    with hlen | ⟨w, rfl⟩
  · exact Or.inl hlen
  · right
    rw [joinSp_singleton]
    have hw : w ∈ (wrapChunks width (pySplit text) []).flatten :=
      List.mem_flatten.mpr ⟨[w], hchunk, List.mem_singleton.mpr rfl⟩
    rw [wrapChunks_flatten width (pySplit text) [], List.nil_append] at hw
    exact hw

/-- C8 (witness): the amended width bound applied to the concrete two-letter
text at width 90: the single produced line fits. -/
theorem wrap_width_amended_witness :
    (joinSp [['h', 'i']]).length ≤ 90 ∨ joinSp [['h', 'i']] ∈ pySplit ['h', 'i'] := by
  apply wrap_width_amended ['h', 'i'] 90
  have hsplit : pySplit ['h', 'i'] = [['h', 'i']] := by
    apply pySplit_all_clean _ (List.cons_ne_nil _ _)
    intro ch hch
    rcases List.mem_cons.mp hch with rfl | hch
    · rfl
    · rcases List.mem_cons.mp hch with rfl | hch
      · rfl
      · exact absurd hch (List.not_mem_nil _)
  rw [wrap_text, hsplit, wrapChunks]
  rw [if_pos (by rw [List.nil_append, joinSp_singleton]; simp)]
  rw [wrapChunks, if_neg (by simp)]
  rw [List.map_singleton]
  exact List.mem_singleton.mpr rfl
